import Mathlib

/-!
Verification of the transactional key/value storage engine (keyfs).

The definitions below are a shallow embedding of `devpi_server/keyfs.py`:

* `Storage` models the storage backend fields the engine reads and writes
  (`next_serial`, the changelog of committed change maps, and the primary
  `relpath -> (name, last_serial)` index).  Python dicts are modelled as
  association lists updated by consing (lookup sees the most recent
  binding, exactly like a dict update); values are a type parameter `α`.
* `record_set`, `commit_to_filesystem`, `get_value_at`, `commitTx`, the
  transaction operations and the notification-cursor file functions each
  translate the body of the correspondingly named Python function.
* Filesystem side effects (tmp-file staging, renames, removals, the
  changelog durability point) are modelled as explicit effect traces
  (`Eff`) produced in the order the code performs them, and
  `check_pending_renames` as a function on an explicit filesystem state.
-/

namespace KeyfsModel

/-- A TypedKey as far as the storage layer sees it: its registered name
and its relpath (equality of TypedKeys in the source is by relpath). -/
structure TKey where
  name : String
  relpath : String
deriving DecidableEq

/-- One entry of a changelog `changes` map: `(keyname, back_serial, val)`
with `val = none` denoting deletion, as recorded by `FSWriter.record_set`. -/
structure Change (α : Type) where
  keyname : String
  back_serial : Int
  val : Option α
deriving DecidableEq

/-- A `changes` dict: relpath to change entry, as an association list. -/
abbrev Changes (α : Type) := List (String × Change α)

/-- Dict lookup on an association list: the most recent binding wins. -/
def lookupA {β : Type} : List (String × β) → String → Option β
  | [], _ => none
  | (k, v) :: rest, r => if k = r then some v else lookupA rest r

/-- The storage backend state used by the engine: `next_serial`, the
changelog (entry `s` of the list is the committed `changes` map of serial
`s`; the `rel_renames` component is modelled separately by the effect
traces below), and the primary index `relpath -> (name, last_serial)`. -/
structure Storage (α : Type) where
  next_serial : Int
  changelog : List (Changes α)
  index : List (String × (String × Int))
deriving DecidableEq

def emptyStorage (α : Type) : Storage α := ⟨0, [], []⟩

/-- `Connection.db_read_typedkey`: primary index lookup. -/
def db_read_typedkey {α : Type} (st : Storage α) (relpath : String) :
    Option (String × Int) :=
  lookupA st.index relpath

/-- `FSWriter.db_get_typedkey_value`: index lookup defaulting to
`(typedkey.name, -1)` when the relpath has never been written. -/
def db_get_typedkey_value {α : Type} (st : Storage α) (k : TKey) : String × Int :=
  (db_read_typedkey st k.relpath).getD (k.name, -1)

/-- `FSWriter.record_set`: read `(name, back_serial)`, write the index row
`(name, next_serial)`, and record `(name, back_serial, value)` in the
writer's pending changes map (`value = none` means deletion). -/
def record_set {α : Type} (st : Storage α) (chs : Changes α) (k : TKey)
    (v : Option α) : Storage α × Changes α :=
  let nb := db_get_typedkey_value st k
  ({ st with index := (k.relpath, (k.name, st.next_serial)) :: st.index },
   (k.relpath, ⟨k.name, nb.2, v⟩) :: chs)

/-- The storage effect of `FSWriter.commit_to_filesystem`: write the
changelog entry at serial `next_serial` (an append, since the changelog
holds entries `0 .. next_serial - 1`), then `next_serial += 1`. -/
def commit_to_filesystem {α : Type} (st : Storage α) (chs : Changes α) :
    Storage α :=
  { st with changelog := st.changelog ++ [chs], next_serial := st.next_serial + 1 }

/-- `Storage.get_changes(serial)`: the committed changes map at a serial,
`none` when no entry exists at that serial. -/
def getChanges {α : Type} (st : Storage α) (s : Int) : Option (Changes α) :=
  if s < 0 then none else st.changelog.get? s.toNat

/-- How `KeyFS.get_value_at` fails: `keyError` for a raised `KeyError`
(key absent or deleted), `stuck` when the `assert tup` assertion fails or
the back-serial chain does not terminate within the fuel bound. -/
inductive GErr
  | keyError
  | stuck
deriving DecidableEq

/-- The `while last_serial >= 0` loop of `KeyFS.get_value_at`, with a fuel
parameter to make the recursion structural; `stuck` is returned only when
the fuel runs out or the `assert tup` of the source would fail. -/
def gvaLoop {α : Type} (st : Storage α) (relpath : String) (at_serial : Int) :
    Int → Nat → Except GErr α
  | _, 0 => .error .stuck
  | last_serial, fuel + 1 =>
    if last_serial < 0 then .error .keyError
    else
      match (getChanges st last_serial).bind (fun chs => lookupA chs relpath) with
      | none => .error .stuck
      | some c =>
        if at_serial < last_serial then
          gvaLoop st relpath at_serial c.back_serial fuel
        else
          match c.val with
          | some v => .ok v
          | none => .error .keyError

/-- `KeyFS.get_value_at`: look the relpath up in the primary index
(`KeyError` when it has no row), then walk `back_serial` links until a
serial at or below `at_serial` is reached.  The fuel
`st.changelog.length + 1` suffices for every committed history, as proved
below. -/
def get_value_at {α : Type} (st : Storage α) (relpath : String)
    (at_serial : Int) : Except GErr α :=
  match db_read_typedkey st relpath with
  | none => .error .keyError
  | some (_, last_serial) =>
    gvaLoop st relpath at_serial last_serial (st.changelog.length + 1)

/-- A `Transaction`: mode flag, snapshot serial, value cache keyed by
relpath, the dirty set of typed keys, and the connection's staged dirty
files (`none` content means delete at commit). -/
structure Txn (α : Type) where
  write : Bool
  at_serial : Int
  cache : List (String × α)
  dirty : List TKey
  dirty_files : List (String × Option String)
deriving DecidableEq

/-- A freshly begun write transaction: `at_serial` is the current serial
(`next_serial - 1`) observed under the write lock. -/
def beginWriteTx {α : Type} (st : Storage α) : Txn α :=
  ⟨true, st.next_serial - 1, [], [], []⟩

/-- A freshly begun read transaction pinned at `at_serial`. -/
def beginReadTx (α : Type) (at_serial : Int) : Txn α :=
  ⟨false, at_serial, [], [], []⟩

/-- Insertion into the `dirty` set: TypedKey equality is by relpath. -/
def dirtyInsert (dirty : List TKey) (k : TKey) : List TKey :=
  if dirty.any (fun d => d.relpath == k.relpath) then dirty else k :: dirty

/-- The state update of `Transaction.set` (its write-permission check has
already passed): enter the value into the cache and mark the key dirty. -/
def txSetCore {α : Type} (tx : Txn α) (k : TKey) (v : α) : Txn α :=
  { tx with cache := (k.relpath, v) :: tx.cache, dirty := dirtyInsert tx.dirty k }

/-- The state update of `Transaction.delete`: pop the key from the cache
and mark it dirty. -/
def txDeleteCore {α : Type} (tx : Txn α) (k : TKey) : Txn α :=
  { tx with cache := tx.cache.filter (fun p => ¬ p.1 = k.relpath),
            dirty := dirtyInsert tx.dirty k }

/-- Errors raised on the `set` path: `Transaction.set`/`delete` raise
`ReadOnly` on a read transaction; `TypedKey.set` raises `TypeError` for a
value outside the key's declared type. -/
inductive SetErr
  | readOnly
  | typeMismatch
deriving DecidableEq

/-- `Transaction.set`: raise `ReadOnly` unless this is a write
transaction, else update cache and dirty set.  (The recursive
text-keys-only assertion for dict values always passes in this model,
whose strings are text.) -/
def Transaction_set {α : Type} (tx : Txn α) (k : TKey) (v : α) :
    Except SetErr (Txn α) :=
  if tx.write = false then .error .readOnly else .ok (txSetCore tx k v)

/-- `Transaction.delete`: raise `ReadOnly` unless a write transaction. -/
def Transaction_delete {α : Type} (tx : Txn α) (k : TKey) :
    Except SetErr (Txn α) :=
  if tx.write = false then .error .readOnly else .ok (txDeleteCore tx k)

/-- `Transaction.exists`: true iff the key is cached, or not marked dirty
and `get_value_at` succeeds at the transaction's snapshot serial. -/
def txExists {α : Type} (st : Storage α) (tx : Txn α) (k : TKey) : Bool :=
  if (lookupA tx.cache k.relpath).isSome then true
  else if tx.dirty.any (fun d => d.relpath == k.relpath) then false
  else (get_value_at st k.relpath tx.at_serial).toOption.isSome

/-- `Transaction.commit`, returning the new storage state, the returned
serial, and whether an `FSWriter` was opened.  A read transaction, and a
write transaction with nothing dirty and no dirty files, just close and
return `at_serial`; otherwise every dirty key is `record_set` (a cache
miss meaning deletion), the commit serial is the `next_serial` observed
under the writer (before its exit increments it), and the writer's scoped
exit appends the changelog entry and increments `next_serial`. -/
def commitTx {α : Type} (st : Storage α) (tx : Txn α) : Storage α × Int × Bool :=
  if tx.write = false then (st, tx.at_serial, false)
  else if tx.dirty.isEmpty && tx.dirty_files.isEmpty then (st, tx.at_serial, false)
  else
    let folded := tx.dirty.foldl
      (fun acc k => record_set acc.1 acc.2 k (lookupA tx.cache k.relpath)) (st, [])
    (commit_to_filesystem folded.1 folded.2, st.next_serial, true)

/-! ### The notification thread's persistent cursor (`.event_serial`) -/

/-- The contents of the `.event_serial` file after
`TxNotificationThread.write_event_serial(event_serial)`: the decimal
rendering (big-endian digit list) of `event_serial + 1`. -/
def write_event_serial (event_serial : Int) : List Nat :=
  (Nat.digits 10 (event_serial + 1).toNat).reverse

/-- `read_int_from_file`: parse the decimal contents, or return the
default when the file is missing. -/
def read_int_from_file (file : Option (List Nat)) (default : Int) : Int :=
  match file with
  | none => default
  | some ds => (Nat.ofDigits 10 ds.reverse : Nat)

/-- `TxNotificationThread.read_event_serial`: the disk serial is kept one
higher, so read with default 0 and subtract one. -/
def read_event_serial (file : Option (List Nat)) : Int :=
  read_int_from_file file 0 - 1

/-! ### Value typing (`TypedKey.set`) -/

/-- The declared value shapes keys are registered with. -/
inductive VType
  | tdict
  | tlist
  | tint
  | tstring
deriving DecidableEq

/-- Stored values as a tagged union over the declared shapes. -/
inductive V
  | vdict (entries : List (String × V))
  | vlist (elems : List V)
  | vint (n : Int)
  | vstring (s : String)

/-- The shape of a value (`isinstance(val, self.type)` holds iff the
shapes agree). -/
def vtype : V → VType
  | .vdict _ => .tdict
  | .vlist _ => .tlist
  | .vint _ => .tint
  | .vstring _ => .tstring

/-- `TypedKey.set`: first the declared-type check (raising `TypeError`),
then delegation to `Transaction.set` (which raises `ReadOnly` on a read
transaction). -/
def TypedKey_set (ktype : VType) (tx : Txn V) (k : TKey) (v : V) :
    Except SetErr (Txn V) :=
  if vtype v = ktype then Transaction_set tx k v else .error .typeMismatch

/-! ### Filesystem effect traces of the `FSWriter` scoped exit -/

/-- One observable filesystem or changelog effect, in the order the code
performs them. -/
inductive Eff
  | writeTmp (path : String) (content : String)
  | writeChangelog (serial : Int)
  | renameFile (src : String) (dst : String)
  | removeFile (path : String)
deriving DecidableEq

/-- An effect that mutates or destroys committed filesystem state (the
renames and removals of `commit_renames`); writing a fresh `-tmp` staging
file and writing the changelog entry are not destructive. -/
def isDestructive : Eff → Bool
  | .renameFile _ _ => true
  | .removeFile _ => true
  | _ => false

/-- The dirty-file drain at the top of `FSWriter.__exit__`: a `none`
content records a pending delete of the path, a `some` content is written
to `path + "-tmp"` and a pending rename `(path-tmp, path)` is recorded.
Returns the effects performed and the pending renames appended. -/
def drainDirtyFiles :
    List (String × Option String) → List Eff × List (Option String × String)
  | [] => ([], [])
  | (p, none) :: rest =>
    let r := drainDirtyFiles rest
    (r.1, (none, p) :: r.2)
  | (p, some c) :: rest =>
    let r := drainDirtyFiles rest
    (Eff.writeTmp (p ++ "-tmp") c :: r.1, (some (p ++ "-tmp"), p) :: r.2)

/-- `make_rel_renames`: a pending `(source, dest)` with a source yields
the source path (ending in `-tmp`), a sourceless one yields the dest path
(meaning removal).  The basedir-relativization is dropped: paths in this
model are already basedir-relative. -/
def make_rel_renames (pending : List (Option String × String)) : List String :=
  pending.map (fun sd => match sd.1 with | some s => s | none => sd.2)

/-- The effects of `commit_renames`: a `-tmp` entry is renamed to its
stripped form, a plain entry is removed. -/
def commit_renames_effs (rels : List String) : List Eff :=
  rels.map (fun rel =>
    if rel.endsWith "-tmp" then .renameFile rel (rel.dropRight 4)
    else .removeFile rel)

/-- The effect trace and storage result of `FSWriter.__exit__` without
error: drain the dirty files, then `commit_to_filesystem` writes the
changelog entry at `next_serial` and only then performs the renames and
removals. -/
def fswExitSuccess {α : Type} (st : Storage α) (chs : Changes α)
    (df : List (String × Option String))
    (pending : List (Option String × String)) : List Eff × Storage α :=
  let drained := drainDirtyFiles df
  (drained.1 ++ [Eff.writeChangelog st.next_serial]
    ++ commit_renames_effs (make_rel_renames (pending ++ drained.2)),
   commit_to_filesystem st chs)

/-- The `while self.pending_renames: ... pop()` rollback loop of
`FSWriter.__exit__` with error: entries are popped from the end, and each
entry with a source has its staged temp file removed. -/
def rollbackPops : List (Option String × String) → List Eff
  | [] => []
  | sd :: rest =>
    (match sd.1 with
     | some s => [Eff.removeFile s]
     | none => []) ++ rollbackPops rest

/-- The effect trace and storage result of `FSWriter.__exit__` with an
error: the dirty files are still drained (the drain precedes the error
branch in the source), then the pending renames are rolled back in
reverse; no changelog entry is written and `next_serial` is untouched. -/
def fswExitError {α : Type} (st : Storage α)
    (df : List (String × Option String))
    (pending : List (Option String × String)) : List Eff × Storage α :=
  let drained := drainDirtyFiles df
  (drained.1 ++ rollbackPops (pending ++ drained.2).reverse, st)

/-- The path removed by a removal effect, for collecting removals. -/
def removedPath : Eff → Option String
  | .removeFile p => some p
  | _ => none

/-! ### Key registry: parameterized keys (`PTypedKey`)

A key pattern follows the spec's grammar
`path ::= segment ("/" segment)*`, `segment ::= literal | "{" ident "}"`:
a slash-separated sequence of segments, each either a literal (which by
construction of the pattern contains no slash) or a placeholder.  The
compiled reverse regex replaces each placeholder by `(?P<x>[^/]+)` and
matches literals literally (`+` is escaped); since `[^/]+` cannot cross a
slash, the regex matches a relpath exactly when the relpath splits on `/`
into as many pieces as the pattern has segments, each literal segment
equals its piece, and each placeholder piece is nonempty — which is how
`extract_params` is rendered below.  Strings are modelled as `List Char`
so that splitting and joining are structural. -/

/-- One segment of a registered key pattern. -/
inductive Seg
  | lit (text : List Char)
  | param (name : String)
deriving DecidableEq

abbrev Pattern := List Seg

/-- The placeholder names of a pattern, in order. -/
def patternParams : Pattern → List String
  | [] => []
  | .lit _ :: rest => patternParams rest
  | .param n :: rest => n :: patternParams rest

/-- Substitution of parameter values into one segment. -/
def resolveSeg (f : String → List Char) : Seg → List Char
  | .lit t => t
  | .param n => f n

/-- `PTypedKey.__call__`: reject any parameter value containing a slash
(the `ValueError`), else substitute the values into the pattern; the
resulting relpath joins the resolved segments with slashes. -/
def applyParams (p : Pattern) (f : String → List Char) : Option (List Char) :=
  if ∀ n ∈ patternParams p, ('/' : Char) ∉ f n then
    some (List.intercalate ['/'] (p.map (resolveSeg f)))
  else none

/-- Matching the compiled reverse regex segment-by-segment against the
slash-split relpath, collecting the named groups in pattern order. -/
def extractAux : Pattern → List (List Char) → Option (List (String × List Char))
  | [], [] => some []
  | .lit t :: ps, piece :: pieces =>
    if piece = t then extractAux ps pieces else none
  | .param n :: ps, piece :: pieces =>
    if piece = [] then none
    else (extractAux ps pieces).map (fun rest => (n, piece) :: rest)
  | _, _ => none

/-- `PTypedKey.extract_params`: the match's group dictionary, or empty
when the regex does not match. -/
def extract_params (p : Pattern) (relpath : List Char) :
    List (String × List Char) :=
  (extractAux p (relpath.splitOn '/')).getD []

/-- The literal segments of a pattern (each slash-free by construction of
the slash-separated pattern grammar). -/
def patternLits : Pattern → List (List Char)
  | [] => []
  | .lit t :: rest => t :: patternLits rest
  | .param _ :: rest => patternLits rest

/-! ### Crash recovery (`check_pending_renames`) -/

/-- Filesystem paths as character lists (so suffix stripping is
structural); file contents are opaque strings. -/
abbrev Path := List Char

/-- A filesystem state: which path holds which content. -/
abbrev Fs := Path → Option String

/-- The `-tmp` suffix. -/
def tmpSuffix : Path := ['-', 't', 'm', 'p']

/-- `relpath.endswith("-tmp")`. -/
def isTmp (p : Path) : Bool := tmpSuffix.isSuffixOf p

/-- `path[:-4]`: the path with its last four characters stripped. -/
def stripTmp (p : Path) : Path := p.take (p.length - 4)

/-- One entry of `check_pending_renames`: a `-tmp` entry that exists is
renamed onto its stripped form (completing the crashed commit's rename,
replacing any file at the destination); a missing `-tmp` entry asserts
that the stripped form exists (`none` models the assertion failure, which
would crash startup); a plain entry is removed, ignoring a missing
file. -/
def recoveryStep (fs : Fs) (r : Path) : Option Fs :=
  if isTmp r then
    match fs r with
    | some c =>
      some (fun p => if p = stripTmp r then some c else if p = r then none else fs p)
    | none => if (fs (stripTmp r)).isSome then some fs else none
  else
    some (fun p => if p = r then none else fs p)

/-- `check_pending_renames`: replay the pending relnames of the last
changelog entry against the filesystem, entry by entry. -/
def check_pending_renames (fs : Fs) : List Path → Option Fs
  | [] => some fs
  | r :: rest =>
    match recoveryStep fs r with
    | none => none
    | some fs1 => check_pending_renames fs1 rest

/-! ### Committed histories (for the time-travel property) -/

/-- One committed write batch: for each typed key, the value it was set
to (`none` means deleted).  A transaction's dirty set and an imported
changes dict both hold at most one entry per relpath, hence the
distinct-relpath hypotheses below. -/
abbrev Batch (α : Type) := List (TKey × Option α)

/-- Committing one batch: `record_set` every entry (as
`Transaction.commit` does for its dirty keys), then the writer's scoped
exit writes the changelog entry and increments the serial. -/
def applyBatch {α : Type} (st : Storage α) (b : Batch α) : Storage α :=
  let folded := b.foldl (fun acc kv => record_set acc.1 acc.2 kv.1 kv.2) (st, [])
  commit_to_filesystem folded.1 folded.2

/-- The storage reached by committing a history of batches on the empty
store. -/
def buildH {α : Type} (h : List (Batch α)) : Storage α :=
  h.foldl applyBatch (emptyStorage α)

/-- The batch entry for a relpath (unique under the distinct-relpath
hypothesis). -/
def bFind {α : Type} (b : Batch α) (r : String) : Option (TKey × Option α) :=
  b.find? (fun kv => kv.1.relpath == r)

/-- The write history of a relpath in ascending serial order, serials
offset by `s`: one `(serial, key, value)` triple per batch writing it. -/
def histChainAux {α : Type} (r : String) :
    List (Batch α) → Int → List (Int × TKey × Option α)
  | [], _ => []
  | b :: rest, s =>
    (match bFind b r with
     | some kv => [(s, kv.1, kv.2)]
     | none => []) ++ histChainAux r rest (s + 1)

/-- The write history of a relpath, most recent write first. -/
def histChain {α : Type} (h : List (Batch α)) (r : String) :
    List (Int × TKey × Option α) :=
  (histChainAux r h 0).reverse

/-- The serial of the most recent write in a chain, `-1` when there is
none (the shape of a `back_serial` link). -/
def chainHead {α : Type} (c : List (Int × TKey × Option α)) : Int :=
  (c.head?.map (fun q => q.1)).getD (-1)

/-- The chain is faithfully recorded in the storage: every element's
changelog entry holds its value and its `back_serial` links to the next
(older) element, and serials strictly decrease along the chain. -/
def chainLinked {α : Type} (st : Storage α) (r : String) :
    List (Int × TKey × Option α) → Prop
  | [] => True
  | (s, k, v) :: rest =>
    0 ≤ s ∧
      (getChanges st s).bind (fun chs => lookupA chs r)
          = some ⟨k.name, chainHead rest, v⟩ ∧
      (∀ q ∈ rest, q.1 < s) ∧
      chainLinked st r rest

/-- The reference time-travel semantics, stated on the history itself
(the spec's words): the value a key holds immediately after serial `s` is
the value of its most recent write at a serial at or below `s`; a key
never written at or before `s`, or whose most recent such write is a
deletion, is absent (`KeyError`). -/
def refGet {α : Type} (h : List (Batch α)) (r : String) (s : Int) :
    Except GErr α :=
  match (histChain h r).find? (fun q => decide (q.1 ≤ s)) with
  | none => .error .keyError
  | some (_, _, none) => .error .keyError
  | some (_, _, some v) => .ok v

end KeyfsModel

namespace KeyfsModel

/-! ## Theorems -/

/-- C8: the `.event_serial` file stores `event_serial + 1`, so for every
integer `n ≥ -1` reading the cursor back after `write_event_serial n`
yields `n`, and a missing file reads as `-1`. -/
theorem c8_event_serial_roundtrip (n : Int) (h : -1 ≤ n) :
    read_event_serial (some (write_event_serial n)) = n ∧
      read_event_serial none = -1 := by
  constructor
  · simp only [read_event_serial, read_int_from_file, write_event_serial,
      List.reverse_reverse, Nat.ofDigits_digits]
    rw [Int.toNat_of_nonneg (by omega)]
    omega
  · rfl

/-- Witness for C8 at `n = 5`. -/
theorem c8_event_serial_roundtrip_witness :
    read_event_serial (some (write_event_serial 5)) = 5 ∧
      read_event_serial none = -1 :=
  c8_event_serial_roundtrip 5 (by norm_num)

/-- C10: on a read transaction, `TypedKey.set` with a value outside the
key's declared type raises `TypeError`, not `ReadOnly`: the type check
runs before the write-permission check. -/
theorem c10_type_check_precedes_readonly (ktype : VType) (tx : Txn V)
    (k : TKey) (v : V) (_hw : tx.write = false) (ht : vtype v ≠ ktype) :
    TypedKey_set ktype tx k v = .error .typeMismatch := by
  unfold TypedKey_set
  simp [ht]

/-- Witness for C10: a read transaction and an int value for a dict-typed
key. -/
theorem c10_type_check_precedes_readonly_witness :
    TypedKey_set .tdict (beginReadTx V 0) ⟨"K", "a"⟩ (.vint 3) =
      .error .typeMismatch :=
  c10_type_check_precedes_readonly .tdict (beginReadTx V 0) ⟨"K", "a"⟩
    (.vint 3) rfl (by simp [vtype])

/-- C7: committing a write transaction with an empty dirty set and no
dirty files only closes the transaction and returns `at_serial`: the
storage state (`next_serial`, changelog, primary index) is unchanged and
no `FSWriter` is opened. -/
theorem c7_empty_commit_noop {α : Type} (st : Storage α) (tx : Txn α)
    (hw : tx.write = true) (hd : tx.dirty = []) (hf : tx.dirty_files = []) :
    commitTx st tx = (st, tx.at_serial, false) := by
  unfold commitTx
  rw [hw, hd, hf]
  simp

/-- Witness for C7 on a concrete storage and fresh write transaction. -/
theorem c7_empty_commit_noop_witness :
    commitTx (emptyStorage Nat) (beginWriteTx (emptyStorage Nat)) =
      (emptyStorage Nat, -1, false) :=
  c7_empty_commit_noop (emptyStorage Nat) (beginWriteTx (emptyStorage Nat))
    rfl rfl rfl

/-- A `record_set` fold (the dirty-key loop of `Transaction.commit`)
never touches `next_serial` or the changelog: only `commit_to_filesystem`
does. -/
theorem recordSet_fold_frame {α : Type} (f : TKey → Option α) :
    ∀ (l : List TKey) (st : Storage α) (chs : Changes α),
      (l.foldl (fun acc k => record_set acc.1 acc.2 k (f k)) (st, chs)).1.next_serial
          = st.next_serial ∧
        (l.foldl (fun acc k => record_set acc.1 acc.2 k (f k)) (st, chs)).1.changelog
          = st.changelog
  | [], _, _ => ⟨rfl, rfl⟩
  | k :: rest, st, chs => by
    simpa [record_set] using
      recordSet_fold_frame f rest
        { st with index := (k.relpath, (k.name, st.next_serial)) :: st.index }
        ((k.relpath, ⟨k.name, (db_get_typedkey_value st k).2, f k⟩) :: chs)

/-- A successful commit of a write transaction with a nonempty dirty set
or dirty files increments `next_serial` by exactly one. -/
theorem commitTx_nonempty_bumps {α : Type} (st : Storage α) (tx : Txn α)
    (hw : tx.write = true) (hne : tx.dirty ≠ [] ∨ tx.dirty_files ≠ []) :
    (commitTx st tx).1.next_serial = st.next_serial + 1 := by
  unfold commitTx
  rw [hw]
  have hemp : (tx.dirty.isEmpty && tx.dirty_files.isEmpty) = false := by
    rcases hne with hne | hne <;>
      simp [List.isEmpty_iff, hne]
  simp only [Bool.false_eq_true, if_false, hemp]
  rw [commit_to_filesystem]
  rw [(recordSet_fold_frame (fun k => lookupA tx.cache k.relpath) tx.dirty st []).1]
  simp

/-- C3 (amended): after `N` successful write-transaction commits, each
with a nonempty dirty set or nonempty dirty files, `next_serial` (hence
`current_serial = next_serial - 1`) has increased by exactly `N`; and
each successful `FSWriter` scoped exit (whose storage effect is
`commit_to_filesystem`) increments `storage.next_serial` by exactly one. -/
theorem c3_monotonic_serials (st : Storage Nat) (txs : List (Txn Nat))
    (h : ∀ tx ∈ txs, tx.write = true ∧ (tx.dirty ≠ [] ∨ tx.dirty_files ≠ [])) :
    (txs.foldl (fun s tx => (commitTx s tx).1) st).next_serial
        = st.next_serial + (txs.length : Int) ∧
      ∀ (st2 : Storage Nat) (chs : Changes Nat),
        (commit_to_filesystem st2 chs).next_serial = st2.next_serial + 1 := by
  refine ⟨?_, fun st2 chs => rfl⟩
  induction txs generalizing st with
  | nil => simp
  | cons tx rest ih =>
    have htx := h tx (by simp)
    have hrest := ih ((commitTx st tx).1) (fun t ht => h t (by simp [ht]))
    rw [List.foldl_cons, hrest, commitTx_nonempty_bumps st tx htx.1 htx.2]
    simp only [List.length_cons]
    push_cast
    ring

/-- C3 counterexample: one successful commit of a write transaction whose
dirty set and dirty files are empty is a successful write-transaction
commit after which `current_serial` has increased by `0`, not by `1`. -/
theorem c3_monotonic_serials_cex :
    ((commitTx (emptyStorage Nat) (beginWriteTx (emptyStorage Nat))).1.next_serial - 1
        = (emptyStorage Nat).next_serial - 1) ∧
      ¬ ((commitTx (emptyStorage Nat) (beginWriteTx (emptyStorage Nat))).1.next_serial - 1
        = (emptyStorage Nat).next_serial - 1 + 1) := by
  constructor
  · rfl
  · decide

/-- Witness for C3 (amended): two nonempty write commits on the empty
storage raise `next_serial` from `0` to `2`. -/
theorem c3_monotonic_serials_witness :
    (([⟨true, -1, [("a", 1)], [⟨"K", "a"⟩], []⟩,
       ⟨true, -1, [("a", 2)], [⟨"K", "a"⟩], []⟩] : List (Txn Nat)).foldl
          (fun s tx => (commitTx s tx).1) (emptyStorage Nat)).next_serial
        = (emptyStorage Nat).next_serial
          + (([⟨true, -1, [("a", 1)], [⟨"K", "a"⟩], []⟩,
              ⟨true, -1, [("a", 2)], [⟨"K", "a"⟩], []⟩] : List (Txn Nat)).length : Int) ∧
      ∀ (st2 : Storage Nat) (chs : Changes Nat),
        (commit_to_filesystem st2 chs).next_serial = st2.next_serial + 1 :=
  c3_monotonic_serials (emptyStorage Nat) _ (by decide)

/-- Every effect of the dirty-file drain is a staging `writeTmp`. -/
theorem drain_effs_shape :
    ∀ (df : List (String × Option String)) (e : Eff),
      e ∈ (drainDirtyFiles df).1 → ∃ p c, e = .writeTmp p c
  | [], _, h => absurd h (by simp [drainDirtyFiles])
  | (p, none) :: rest, e, h => drain_effs_shape rest e (by simpa [drainDirtyFiles] using h)
  | (p, some c) :: rest, e, h => by
    rcases (by simpa [drainDirtyFiles] using h : e = .writeTmp (p ++ "-tmp") c
        ∨ e ∈ (drainDirtyFiles rest).1) with h1 | h1
    · exact ⟨_, _, h1⟩
    · exact drain_effs_shape rest e h1

/-- The success-exit trace, reassociated: staging writes, then the
changelog write, then the renames and removals. -/
theorem fswExitSuccess_fst {α : Type} (st : Storage α) (chs : Changes α)
    (df : List (String × Option String))
    (pending : List (Option String × String)) :
    (fswExitSuccess st chs df pending).1
      = (drainDirtyFiles df).1
          ++ (Eff.writeChangelog st.next_serial
              :: commit_renames_effs
                  (make_rel_renames (pending ++ (drainDirtyFiles df).2))) := by
  simp [fswExitSuccess]

/-- C5: on a successful `FSWriter` scoped exit the changelog entry for
the commit serial is written strictly before every destructive filesystem
effect (every rename or removal): there is a position holding the
changelog write such that all destructive effects occur at strictly later
positions. -/
theorem c5_changelog_before_destruction {α : Type} (st : Storage α)
    (chs : Changes α) (df : List (String × Option String))
    (pending : List (Option String × String)) :
    ∃ i : Nat,
      (fswExitSuccess st chs df pending).1.get? i
          = some (Eff.writeChangelog st.next_serial) ∧
        ∀ (j : Nat) (e : Eff), (fswExitSuccess st chs df pending).1.get? j = some e →
          isDestructive e = true → i < j := by
  refine ⟨(drainDirtyFiles df).1.length, ?_, ?_⟩
  · rw [fswExitSuccess_fst, List.get?_append_right (Nat.le_refl _), Nat.sub_self]
    rfl
  · intro j e hj hd
    rw [fswExitSuccess_fst] at hj
    rcases Nat.lt_trichotomy j (drainDirtyFiles df).1.length with hlt | heq | hgt
    · rw [List.get?_append hlt] at hj
      obtain ⟨p, c, rfl⟩ := drain_effs_shape df e (List.get?_mem hj)
      simp [isDestructive] at hd
    · subst heq
      rw [List.get?_append_right (Nat.le_refl _), Nat.sub_self] at hj
      simp only [List.get?] at hj
      cases hj
      simp [isDestructive] at hd
    · exact hgt

/-- The rollback loop emits exactly one removal per entry with a source,
in list order. -/
theorem rollbackPops_eq :
    ∀ l : List (Option String × String),
      rollbackPops l = l.filterMap (fun sd => sd.1.map Eff.removeFile)
  | [] => rfl
  | (some s, d) :: rest => by simp [rollbackPops, rollbackPops_eq rest]
  | (none, d) :: rest => by simp [rollbackPops, rollbackPops_eq rest]

/-- C6: on an `FSWriter` scoped exit with an error, the storage state
(in particular `next_serial`) is unchanged, no changelog entry is written,
and the removals performed are exactly the staged temp files (the pending
entries with a source), popped in reverse order. -/
theorem c6_rollback_atomicity {α : Type} (st : Storage α)
    (df : List (String × Option String))
    (pending : List (Option String × String)) :
    (fswExitError st df pending).2 = st ∧
      (∀ s : Int, Eff.writeChangelog s ∉ (fswExitError st df pending).1) ∧
      (fswExitError st df pending).1.filterMap removedPath
        = ((pending ++ (drainDirtyFiles df).2).filterMap Prod.fst).reverse := by
  refine ⟨rfl, ?_, ?_⟩
  · intro s hmem
    rcases List.mem_append.1 hmem with h1 | h1
    · obtain ⟨p, c, he⟩ := drain_effs_shape df _ h1
      exact Eff.noConfusion he
    · rw [rollbackPops_eq] at h1
      obtain ⟨sd, _, he⟩ := List.mem_filterMap.1 h1
      cases hsd : sd.1 <;> rw [hsd] at he <;> simp at he
  · show ((drainDirtyFiles df).1 ++ rollbackPops _).filterMap removedPath = _
    rw [List.filterMap_append, rollbackPops_eq, List.filterMap_filterMap]
    have hdrain : (drainDirtyFiles df).1.filterMap removedPath = [] := by
      rw [List.filterMap_eq_nil]
      intro e he
      obtain ⟨p, c, rfl⟩ := drain_effs_shape df e he
      rfl
    rw [hdrain, List.nil_append, List.filterMap_reverse]
    congr 1
    apply List.filterMap_congr
    intro sd _
    cases hsd : sd.1 <;> simp [removedPath, hsd]

/-- A placeholder occurring in the pattern occurs among its parameter
names. -/
theorem param_mem_patternParams (p : Pattern) (n : String)
    (h : Seg.param n ∈ p) : n ∈ patternParams p := by
  induction p with
  | nil => cases h
  | cons s rest ih =>
    rcases List.mem_cons.1 h with h1 | h1
    · rw [← h1]
      simp [patternParams]
    · cases s <;> simp [patternParams, ih h1]

/-- A literal segment of the pattern occurs among its literals. -/
theorem lit_mem_patternLits (p : Pattern) (t : List Char)
    (h : Seg.lit t ∈ p) : t ∈ patternLits p := by
  induction p with
  | nil => cases h
  | cons s rest ih =>
    rcases List.mem_cons.1 h with h1 | h1
    · rw [← h1]
      simp [patternLits]
    · cases s <;> simp [patternLits, ih h1]

/-- Matching the resolved segments of a pattern back against it succeeds
and recovers exactly the substituted parameter values, provided every
value is nonempty. -/
theorem extractAux_resolve (f : String → List Char) :
    ∀ p : Pattern, (∀ n ∈ patternParams p, f n ≠ []) →
      extractAux p (p.map (resolveSeg f))
        = some ((patternParams p).map (fun n => (n, f n)))
  | [], _ => rfl
  | .lit t :: rest, h => by
    have ih := extractAux_resolve f rest (by
      intro m hm
      exact h m (by simpa [patternParams] using hm))
    simp [extractAux, resolveSeg, patternParams, ih]
  | .param n :: rest, h => by
    have hn : f n ≠ [] := h n (by simp [patternParams])
    have ih := extractAux_resolve f rest (by
      intro m hm
      exact h m (by simp [patternParams, hm]))
    simp [extractAux, resolveSeg, patternParams, hn, ih]

/-- C2 (amended): for every pattern in the slash-separated segment
grammar (literal segments slash-free, as the grammar guarantees) and
every param map whose values are nonempty strings not containing a slash,
forward application succeeds and `extract_params` of the produced relpath
recovers exactly the param map.  (For an empty value the produced relpath
has an empty path segment, the reverse regex `[^/]+` fails to match, and
`extract_params` returns the empty dict instead — the counterexample
below — so legality is amended to require nonempty values.) -/
theorem c2_param_roundtrip (p : Pattern) (f : String → List Char)
    (hlit : ∀ t ∈ patternLits p, ('/' : Char) ∉ t)
    (hlegal : ∀ n ∈ patternParams p, ('/' : Char) ∉ f n)
    (hne : ∀ n ∈ patternParams p, f n ≠ []) :
    applyParams p f = some (List.intercalate ['/'] (p.map (resolveSeg f))) ∧
      extract_params p (List.intercalate ['/'] (p.map (resolveSeg f)))
        = (patternParams p).map (fun n => (n, f n)) := by
  refine ⟨by unfold applyParams; exact if_pos hlegal, ?_⟩
  unfold extract_params
  rcases hp : p with _ | ⟨s, rest⟩
  · rfl
  · rw [← hp]
    have hsplit : (List.intercalate ['/'] (p.map (resolveSeg f))).splitOn '/'
        = p.map (resolveSeg f) := by
      apply List.splitOn_intercalate
      · intro l hl
        obtain ⟨seg, hseg, rfl⟩ := List.mem_map.1 hl
        cases seg with
        | lit t => exact hlit t (lit_mem_patternLits p t hseg)
        | param n => exact hlegal n (param_mem_patternParams p n hseg)
      · rw [hp]
        simp
    rw [hsplit, extractAux_resolve f p hne]
    rfl

/-- C2 counterexample: the empty string is a legal param value (it
contains no slash), yet for the pattern `users/{u}/info` with `u = ""`
forward application yields `users//info` and `extract_params` returns the
empty dict, not the param map. -/
theorem c2_param_roundtrip_cex :
    applyParams [Seg.lit "users".toList, Seg.param "u", Seg.lit "info".toList]
        (fun _ => []) = some "users//info".toList ∧
      extract_params
          [Seg.lit "users".toList, Seg.param "u", Seg.lit "info".toList]
          "users//info".toList = [] ∧
      (patternParams
            [Seg.lit "users".toList, Seg.param "u", Seg.lit "info".toList]).map
          (fun n => (n, (fun _ => ([] : List Char)) n)) = [("u", [])] ∧
      ([] : List (String × List Char)) ≠ [("u", [])] := by
  refine ⟨by decide, by decide, by decide, by decide⟩

/-- `get_value_at` on a relpath with an index row enters the walk at the
row's `last_serial`. -/
theorem get_value_at_eq {α : Type} {st : Storage α} {r : String} {nm : String}
    {ls : Int} (a : Int) (h : db_read_typedkey st r = some (nm, ls)) :
    get_value_at st r a = gvaLoop st r a ls (st.changelog.length + 1) := by
  unfold get_value_at
  rw [h]

/-- `get_value_at` on a relpath with no index row raises `KeyError`. -/
theorem get_value_at_norow {α : Type} {st : Storage α} {r : String} (a : Int)
    (h : db_read_typedkey st r = none) :
    get_value_at st r a = .error .keyError := by
  unfold get_value_at
  rw [h]

/-- One unfolding of the `get_value_at` walk at positive fuel. -/
theorem gvaLoop_succ {α : Type} (st : Storage α) (r : String) (s ls : Int)
    (fuel : Nat) :
    gvaLoop st r s ls (fuel + 1)
      = if ls < 0 then .error .keyError
        else
          match (getChanges st ls).bind (fun chs => lookupA chs r) with
          | none => .error .stuck
          | some c =>
            if s < ls then gvaLoop st r s c.back_serial fuel
            else
              match c.val with
              | some v => .ok v
              | none => .error .keyError := rfl

/-- C4: in a write transaction, `set(k, v)` then `delete(k)` then
`commit` produces a state in which the commit serial is the `next_serial`
observed at commit, `get_value_at(k, s)` raises `KeyError` for every
serial `s` at or after the commit serial, and `exists(k)` is false in any
transaction begun at such a serial. -/
theorem c4_delete_semantics {α : Type} (st : Storage α) (k : TKey) (v : α)
    (hwf : st.next_serial = (st.changelog.length : Int)) (s : Int)
    (hs : st.next_serial ≤ s) :
    (commitTx st (txDeleteCore (txSetCore (beginWriteTx st) k v) k)).2.1
        = st.next_serial ∧
      get_value_at (commitTx st (txDeleteCore (txSetCore (beginWriteTx st) k v) k)).1
          k.relpath s = .error .keyError ∧
      txExists (commitTx st (txDeleteCore (txSetCore (beginWriteTx st) k v) k)).1
          (beginReadTx α s) k = false := by
  have hns : ¬ st.next_serial < 0 := by omega
  have htx : txDeleteCore (txSetCore (beginWriteTx st) k v) k
      = ⟨true, st.next_serial - 1, [], [k], []⟩ := by
    simp [txSetCore, txDeleteCore, beginWriteTx, dirtyInsert]
  have hcommit : commitTx st (txDeleteCore (txSetCore (beginWriteTx st) k v) k)
      = (⟨st.next_serial + 1,
          st.changelog
            ++ [[(k.relpath, ⟨k.name, (db_get_typedkey_value st k).2, none⟩)]],
          (k.relpath, (k.name, st.next_serial)) :: st.index⟩,
         st.next_serial, true) := by
    rw [htx]
    simp [commitTx, record_set, commit_to_filesystem, lookupA]
  have hget : get_value_at
      (commitTx st (txDeleteCore (txSetCore (beginWriteTx st) k v) k)).1
      k.relpath s = .error .keyError := by
    rw [hcommit]
    show get_value_at
      (⟨st.next_serial + 1,
        st.changelog
          ++ [[(k.relpath, ⟨k.name, (db_get_typedkey_value st k).2, none⟩)]],
        (k.relpath, (k.name, st.next_serial)) :: st.index⟩ : Storage α)
      k.relpath s = .error .keyError
    have hread : db_read_typedkey
        (⟨st.next_serial + 1,
          st.changelog
            ++ [[(k.relpath, ⟨k.name, (db_get_typedkey_value st k).2, none⟩)]],
          (k.relpath, (k.name, st.next_serial)) :: st.index⟩ : Storage α)
        k.relpath = some (k.name, st.next_serial) := by
      simp [db_read_typedkey, lookupA]
    rw [get_value_at_eq s hread]
    rw [gvaLoop_succ, if_neg hns]
    have hchsg : getChanges
        (⟨st.next_serial + 1,
          st.changelog
            ++ [[(k.relpath, ⟨k.name, (db_get_typedkey_value st k).2, none⟩)]],
          (k.relpath, (k.name, st.next_serial)) :: st.index⟩ : Storage α)
        st.next_serial
        = some [(k.relpath, ⟨k.name, (db_get_typedkey_value st k).2, none⟩)] := by
      rw [getChanges, if_neg hns]
      show (st.changelog
          ++ [[(k.relpath,
                (⟨k.name, (db_get_typedkey_value st k).2, none⟩ : Change α))]]).get?
            st.next_serial.toNat
        = some [(k.relpath,
            (⟨k.name, (db_get_typedkey_value st k).2, none⟩ : Change α))]
      have ht2 : st.next_serial.toNat = st.changelog.length := by omega
      rw [ht2, List.get?_append_right (Nat.le_refl _), Nat.sub_self]
      rfl
    rw [hchsg]
    have hlk : lookupA
        [(k.relpath, (⟨k.name, (db_get_typedkey_value st k).2, none⟩ : Change α))]
        k.relpath
        = some ⟨k.name, (db_get_typedkey_value st k).2, none⟩ := by
      simp [lookupA]
    rw [show (some [(k.relpath,
          (⟨k.name, (db_get_typedkey_value st k).2, none⟩ : Change α))]).bind
          (fun chs => lookupA chs k.relpath)
        = some (⟨k.name, (db_get_typedkey_value st k).2, none⟩ : Change α) from hlk]
    have hslt : ¬ s < st.next_serial := by omega
    simp only [hslt, if_false]
  refine ⟨by rw [hcommit], hget, ?_⟩
  rw [txExists]
  simp only [beginReadTx, lookupA, Option.isSome_none, Bool.false_eq_true, if_false,
    List.any_nil]
  rw [hget]
  rfl

/-- Witness for C4: set then delete then commit of key `a` on the empty
storage; serial 0 is the commit serial. -/
theorem c4_delete_semantics_witness :
    (commitTx (emptyStorage Nat)
        (txDeleteCore (txSetCore (beginWriteTx (emptyStorage Nat)) ⟨"K", "a"⟩ 7)
          ⟨"K", "a"⟩)).2.1
        = (emptyStorage Nat).next_serial ∧
      get_value_at
          (commitTx (emptyStorage Nat)
            (txDeleteCore (txSetCore (beginWriteTx (emptyStorage Nat)) ⟨"K", "a"⟩ 7)
              ⟨"K", "a"⟩)).1
          (⟨"K", "a"⟩ : TKey).relpath 0 = .error .keyError ∧
      txExists
          (commitTx (emptyStorage Nat)
            (txDeleteCore (txSetCore (beginWriteTx (emptyStorage Nat)) ⟨"K", "a"⟩ 7)
              ⟨"K", "a"⟩)).1
          (beginReadTx Nat 0) ⟨"K", "a"⟩ = false :=
  c4_delete_semantics (emptyStorage Nat) ⟨"K", "a"⟩ 7 (by decide) 0 (by decide)

/-- A batch entry found for `r` has relpath `r`. -/
theorem bFind_relpath {α : Type} {b : Batch α} {r : String}
    {kv : TKey × Option α} (h : bFind b r = some kv) : kv.1.relpath = r := by
  have := List.find?_some h
  simpa using this

/-- A relpath none of the batch's keys carry is not found. -/
theorem bFind_eq_none {α : Type} {b : Batch α} {r : String}
    (h : r ∉ b.map (fun kv => kv.1.relpath)) : bFind b r = none := by
  rw [bFind, List.find?_eq_none]
  intro kv hkv
  simp only [beq_iff_eq]
  intro hc
  exact h (List.mem_map.2 ⟨kv, hkv, hc⟩)

/-- The `record_set` fold of a batch never touches `next_serial` or the
changelog. -/
theorem batchFold_frame {α : Type} :
    ∀ (b : Batch α) (st : Storage α) (chs : Changes α),
      (b.foldl (fun acc kv => record_set acc.1 acc.2 kv.1 kv.2) (st, chs)).1.next_serial
          = st.next_serial ∧
        (b.foldl (fun acc kv => record_set acc.1 acc.2 kv.1 kv.2) (st, chs)).1.changelog
          = st.changelog
  | [], _, _ => ⟨rfl, rfl⟩
  | kv :: rest, st, chs => by
    rw [List.foldl_cons]
    exact batchFold_frame rest (record_set st chs kv.1 kv.2).1
      (record_set st chs kv.1 kv.2).2

/-- The serial of the `FSWriter` commit of a batch. -/
theorem applyBatch_next_serial {α : Type} (st : Storage α) (b : Batch α) :
    (applyBatch st b).next_serial = st.next_serial + 1 := by
  rw [applyBatch]
  show (commit_to_filesystem _ _).next_serial = _
  rw [commit_to_filesystem]
  exact congrArg (fun x => x + 1) (batchFold_frame b st []).1

/-- Committing a batch appends its changes map to the changelog. -/
theorem applyBatch_changelog {α : Type} (st : Storage α) (b : Batch α) :
    (applyBatch st b).changelog
      = st.changelog
          ++ [(b.foldl (fun acc kv => record_set acc.1 acc.2 kv.1 kv.2) (st, [])).2] := by
  rw [applyBatch]
  show (commit_to_filesystem _ _).changelog = _
  rw [commit_to_filesystem]
  rw [(batchFold_frame b st []).2]

/-- Committing a batch leaves the index as the fold left it. -/
theorem applyBatch_index {α : Type} (st : Storage α) (b : Batch α) :
    (applyBatch st b).index
      = (b.foldl (fun acc kv => record_set acc.1 acc.2 kv.1 kv.2) (st, [])).1.index :=
  rfl

/-- Serial bounds of the write history: every element lies in
`[s, s + h.length)`. -/
theorem histChainAux_bounds {α : Type} (r : String) :
    ∀ (h : List (Batch α)) (s : Int) (q : Int × TKey × Option α),
      q ∈ histChainAux r h s → s ≤ q.1 ∧ q.1 < s + h.length
  | [], _, q, hq => absurd hq (by simp [histChainAux])
  | b :: rest, s, q, hq => by
    rw [histChainAux] at hq
    rcases List.mem_append.1 hq with h1 | h1
    · cases hb : bFind b r with
      | some kv =>
        rw [hb] at h1
        have hq1 : q = (s, kv.1, kv.2) := by simpa using h1
        rw [hq1]
        constructor
        · exact le_refl s
        · simp only [List.length_cons]
          push_cast
          omega
      | none =>
        rw [hb] at h1
        cases h1
    · have hb := histChainAux_bounds r rest (s + 1) q h1
      constructor
      · omega
      · simp only [List.length_cons]
        push_cast
        push_cast at hb
        omega

/-- The write history is no longer than the history itself. -/
theorem histChainAux_length_le {α : Type} (r : String) :
    ∀ (h : List (Batch α)) (s : Int),
      (histChainAux r h s).length ≤ h.length
  | [], _ => Nat.le_refl 0
  | b :: rest, s => by
    rw [histChainAux, List.length_append]
    have hr := histChainAux_length_le r rest (s + 1)
    cases bFind b r <;> simp only [List.length_cons, List.length_nil,
      List.length_singleton] <;> omega

/-- Snoc step of the write history: appending a batch appends its write
(if any) at serial `s + h.length`. -/
theorem histChainAux_snoc {α : Type} (r : String) (b : Batch α) :
    ∀ (h : List (Batch α)) (s : Int),
      histChainAux r (h ++ [b]) s
        = histChainAux r h s
            ++ (match bFind b r with
                | some kv => [((s + h.length : Int), kv.1, kv.2)]
                | none => [])
  | [], s => by
    rw [List.nil_append, histChainAux, histChainAux]
    cases bFind b r <;> simp [histChainAux]
  | b2 :: rest, s => by
    rw [List.cons_append, histChainAux, histChainAux,
      histChainAux_snoc r b rest (s + 1), List.append_assoc]
    have hlen : (s + 1 + (rest.length : Int)) = s + ((b2 :: rest).length : Int) := by
      simp only [List.length_cons]
      push_cast
      ring
    rw [hlen]

/-- Snoc step of the most-recent-first chain. -/
theorem histChain_snoc {α : Type} (r : String) (b : Batch α)
    (h : List (Batch α)) :
    histChain (h ++ [b]) r
      = (match bFind b r with
         | some kv => [((h.length : Int), kv.1, kv.2)]
         | none => [])
          ++ histChain h r := by
  rw [histChain, histChain, histChainAux_snoc r b h 0, List.reverse_append]
  cases bFind b r <;> simp

/-- What the `record_set` fold of a batch records, per relpath: a written
relpath gets the index row `(name, next_serial)` and a changes entry
whose `back_serial` is its previous `last_serial` (`-1` if none); every
other relpath keeps its index row and changes entry. -/
theorem batchFold_spec {α : Type} :
    ∀ (b : Batch α) (st : Storage α) (chs : Changes α) (r : String),
      (b.map (fun kv => kv.1.relpath)).Nodup →
      (match bFind b r with
       | some kv =>
           db_read_typedkey
               (b.foldl (fun acc kv2 => record_set acc.1 acc.2 kv2.1 kv2.2) (st, chs)).1 r
             = some (kv.1.name, st.next_serial) ∧
           lookupA
               (b.foldl (fun acc kv2 => record_set acc.1 acc.2 kv2.1 kv2.2) (st, chs)).2 r
             = some ⟨kv.1.name, (db_get_typedkey_value st kv.1).2, kv.2⟩
       | none =>
           db_read_typedkey
               (b.foldl (fun acc kv2 => record_set acc.1 acc.2 kv2.1 kv2.2) (st, chs)).1 r
             = db_read_typedkey st r ∧
           lookupA
               (b.foldl (fun acc kv2 => record_set acc.1 acc.2 kv2.1 kv2.2) (st, chs)).2 r
             = lookupA chs r)
  | [], st, chs, r, _ => by
    have hb : bFind ([] : Batch α) r = none := rfl
    rw [hb]
    exact ⟨rfl, rfl⟩
  | (k0, v0) :: rest, st, chs, r, hnd => by
    have hnd1 : k0.relpath ∉ rest.map (fun kv => kv.1.relpath) ∧
        (rest.map (fun kv => kv.1.relpath)).Nodup := by
      rw [List.map_cons, List.nodup_cons] at hnd
      exact hnd
    rw [List.foldl_cons]
    by_cases hr : k0.relpath = r
    · subst hr
      have hb : bFind ((k0, v0) :: rest) k0.relpath = some (k0, v0) := by
        rw [bFind, List.find?_cons_of_pos _ (by simp)]
      rw [hb]
      have hbn : bFind rest k0.relpath = none := bFind_eq_none hnd1.1
      have ihspec := batchFold_spec rest (record_set st chs k0 v0).1
        (record_set st chs k0 v0).2 k0.relpath hnd1.2
      rw [hbn] at ihspec
      constructor
      · rw [ihspec.1]
        show lookupA ((k0.relpath, (k0.name, st.next_serial)) :: st.index) k0.relpath
          = some (k0.name, st.next_serial)
        show (if k0.relpath = k0.relpath then some (k0.name, st.next_serial)
          else lookupA st.index k0.relpath) = some (k0.name, st.next_serial)
        rw [if_pos rfl]
      · rw [ihspec.2]
        show (if k0.relpath = k0.relpath
            then some (⟨k0.name, (db_get_typedkey_value st k0).2, v0⟩ : Change α)
            else lookupA chs k0.relpath)
          = some ⟨k0.name, (db_get_typedkey_value st k0).2, v0⟩
        rw [if_pos rfl]
    · have hb : bFind ((k0, v0) :: rest) r = bFind rest r := by
        rw [bFind, List.find?_cons_of_neg _ (by simp [hr]), bFind]
      rw [hb]
      have ihspec := batchFold_spec rest (record_set st chs k0 v0).1
        (record_set st chs k0 v0).2 r hnd1.2
      cases hbr : bFind rest r with
      | some kv =>
        rw [hbr] at ihspec
        have hkv : kv.1.relpath = r := bFind_relpath hbr
        constructor
        · exact ihspec.1
        · rw [ihspec.2]
          have hdb : db_get_typedkey_value (record_set st chs k0 v0).1 kv.1
              = db_get_typedkey_value st kv.1 := by
            rw [db_get_typedkey_value, db_get_typedkey_value,
              db_read_typedkey, db_read_typedkey]
            show ((if k0.relpath = kv.1.relpath then some (k0.name, st.next_serial)
                else lookupA st.index kv.1.relpath).getD (kv.1.name, -1))
              = (lookupA st.index kv.1.relpath).getD (kv.1.name, -1)
            rw [if_neg (by rw [hkv]; exact hr)]
          rw [hdb]
      | none =>
        rw [hbr] at ihspec
        constructor
        · rw [ihspec.1]
          rw [db_read_typedkey, db_read_typedkey]
          show (if k0.relpath = r then some (k0.name, st.next_serial)
              else lookupA st.index r)
            = lookupA st.index r
          rw [if_neg hr]
        · rw [ihspec.2]
          show (if k0.relpath = r
              then some (⟨k0.name, (db_get_typedkey_value st k0).2, v0⟩ : Change α)
              else lookupA chs r)
            = lookupA chs r
          rw [if_neg hr]

/-- Changelog entries are immutable: appending a commit preserves every
existing `get_changes` result. -/
theorem getChanges_append {α : Type} (st st2 : Storage α) (x : Changes α)
    (hch : st2.changelog = st.changelog ++ [x]) (s : Int) (e : Changes α)
    (h : getChanges st s = some e) : getChanges st2 s = some e := by
  rw [getChanges] at h ⊢
  by_cases hs : s < 0
  · rw [if_pos hs] at h
    cases h
  · rw [if_neg hs] at h ⊢
    have hlt : s.toNat < st.changelog.length := by
      by_contra h2
      rw [List.get?_eq_none.2 (by omega)] at h
      cases h
    rw [hch, List.get?_append hlt]
    exact h

/-- Chain links survive a commit: the linked entries live at earlier
serials and are untouched by the append. -/
theorem chainLinked_append {α : Type} (st st2 : Storage α) (x : Changes α)
    (hch : st2.changelog = st.changelog ++ [x]) (r : String) :
    ∀ c, chainLinked st r c → chainLinked st2 r c
  | [], _ => trivial
  | (s, k, v) :: rest, hc => by
    obtain ⟨h0, hlink, hdec, hrest⟩ := hc
    refine ⟨h0, ?_, hdec, chainLinked_append st st2 x hch r rest hrest⟩
    cases hg : getChanges st s with
    | none =>
      rw [hg] at hlink
      cases hlink
    | some e =>
      rw [hg] at hlink
      rw [getChanges_append st st2 x hch s e hg]
      exact hlink

/-- Storage invariants of every committed history: the serial counters,
every relpath's index row (name and `last_serial` of its most recent
write), and the faithful chain-linking of its whole write history. -/
theorem buildH_inv {α : Type} :
    ∀ h : List (Batch α),
      (∀ b ∈ h, (b.map (fun kv => kv.1.relpath)).Nodup) →
      (buildH h).next_serial = (h.length : Int) ∧
        (buildH h).changelog.length = h.length ∧
        ∀ r : String,
          db_read_typedkey (buildH h) r
              = (histChain h r).head?.map (fun q => (q.2.1.name, q.1)) ∧
            chainLinked (buildH h) r (histChain h r) := by
  intro h
  induction h using List.reverseRecOn with
  | nil =>
    intro _
    exact ⟨rfl, rfl, fun r => ⟨rfl, trivial⟩⟩
  | append_singleton h b ih =>
    intro hnd
    obtain ⟨ihn, ihl, ihr⟩ := ih (fun b2 hb2 => hnd b2 (by simp [hb2]))
    have hndb : (b.map (fun kv => kv.1.relpath)).Nodup := hnd b (by simp)
    have hbuild : buildH (h ++ [b]) = applyBatch (buildH h) b := by
      rw [buildH, buildH, List.foldl_append, List.foldl_cons, List.foldl_nil]
    have hch : (buildH (h ++ [b])).changelog
        = (buildH h).changelog
            ++ [(b.foldl (fun acc kv => record_set acc.1 acc.2 kv.1 kv.2)
                  (buildH h, [])).2] := by
      rw [hbuild, applyBatch_changelog]
    refine ⟨?_, ?_, ?_⟩
    · rw [hbuild, applyBatch_next_serial, ihn]
      simp only [List.length_append, List.length_cons, List.length_nil]
      push_cast
      ring
    · rw [hch, List.length_append, ihl]
      simp
    · intro r
      have hspec := batchFold_spec b (buildH h) [] r hndb
      have hidx : db_read_typedkey (buildH (h ++ [b])) r
          = db_read_typedkey
              (b.foldl (fun acc kv => record_set acc.1 acc.2 kv.1 kv.2)
                (buildH h, [])).1 r := by
        rw [hbuild]
        rfl
      rw [histChain_snoc r b h]
      cases hb : bFind b r with
      | none =>
        rw [hb] at hspec
        rw [List.nil_append]
        refine ⟨?_, ?_⟩
        · rw [hidx, hspec.1]
          exact (ihr r).1
        · exact chainLinked_append (buildH h) (buildH (h ++ [b])) _ hch r
            (histChain h r) (ihr r).2
      | some kv =>
        rw [hb] at hspec
        rw [List.singleton_append]
        have hkv : kv.1.relpath = r := bFind_relpath hb
        refine ⟨?_, ?_⟩
        · rw [hidx, hspec.1, ihn]
          rfl
        · refine ⟨by omega, ?_, ?_, ?_⟩
          · have hg : getChanges (buildH (h ++ [b])) (h.length : Int)
                = some (b.foldl (fun acc kv2 => record_set acc.1 acc.2 kv2.1 kv2.2)
                    (buildH h, [])).2 := by
              rw [getChanges, if_neg (by omega : ¬ ((h.length : Int)) < 0), hch]
              rw [show ((h.length : Int)).toNat = (buildH h).changelog.length from by
                rw [ihl]; omega]
              rw [List.get?_append_right (Nat.le_refl _), Nat.sub_self]
              rfl
            rw [hg]
            show lookupA
                (b.foldl (fun acc kv2 => record_set acc.1 acc.2 kv2.1 kv2.2)
                  (buildH h, [])).2 r = _
            rw [hspec.2]
            have hback : (db_get_typedkey_value (buildH h) kv.1).2
                = chainHead (histChain h r) := by
              rw [db_get_typedkey_value, hkv, (ihr r).1, chainHead]
              cases (histChain h r).head? with
              | none => rfl
              | some q => rfl
            rw [hback]
          · intro q hq
            have hqb := histChainAux_bounds r h 0
              (q.1, q.2.1, q.2.2) (by
                have : q ∈ (histChainAux r h 0).reverse := hq
                simpa using List.mem_reverse.1 this)
            omega
          · exact chainLinked_append (buildH h) (buildH (h ++ [b])) _ hch r
              (histChain h r) (ihr r).2

/-- The `back_serial` walk along a faithfully recorded chain finds the
most recent write at or below `at_serial` (the first chain element, in
most-recent-first order, with serial at or below it), and raises
`KeyError` when there is none or the write found is a deletion. -/
theorem gvaLoop_chain {α : Type} (st : Storage α) (r : String) (s : Int) :
    ∀ c : List (Int × TKey × Option α), chainLinked st r c →
      ∀ fuel : Nat, c.length < fuel →
        gvaLoop st r s (chainHead c) fuel
          = match c.find? (fun q => decide (q.1 ≤ s)) with
            | none => .error .keyError
            | some (_, _, none) => .error .keyError
            | some (_, _, some v) => .ok v
  | [], _, fuel, hf => by
    obtain ⟨f2, rfl⟩ : ∃ f2, fuel = f2 + 1 := ⟨fuel - 1, by omega⟩
    show gvaLoop st r s (-1) (f2 + 1) = Except.error GErr.keyError
    rw [gvaLoop_succ, if_pos (by norm_num : (-1 : Int) < 0)]
  | (a, k, v) :: rest, hc, fuel, hf => by
    obtain ⟨h0, hlink, hdec, hrest⟩ := hc
    obtain ⟨f2, rfl⟩ : ∃ f2, fuel = f2 + 1 := ⟨fuel - 1, by omega⟩
    have hch : chainHead ((a, k, v) :: rest) = a := rfl
    rw [hch, gvaLoop_succ, if_neg (by omega : ¬ a < 0), hlink]
    show (if s < a then gvaLoop st r s
            ((⟨k.name, chainHead rest, v⟩ : Change α)).back_serial f2
          else
            match ((⟨k.name, chainHead rest, v⟩ : Change α)).val with
            | some v2 => Except.ok v2
            | none => Except.error GErr.keyError)
        = _
    by_cases hsa : s < a
    · rw [if_pos hsa]
      have hfind : ((a, k, v) :: rest).find? (fun q => decide (q.1 ≤ s))
          = rest.find? (fun q => decide (q.1 ≤ s)) := by
        rw [List.find?_cons_of_neg]
        simp
        omega
      rw [hfind]
      exact gvaLoop_chain st r s rest hrest f2
        (by simp only [List.length_cons] at hf; omega)
    · rw [if_neg hsa]
      have hfind : ((a, k, v) :: rest).find? (fun q => decide (q.1 ≤ s))
          = some (a, k, v) := by
        rw [List.find?_cons_of_pos]
        simp
        omega
      rw [hfind]
      cases v <;> rfl

/-- C1 (time travel): for every committed history (batches of writes with
distinct relpaths) and every serial `s ≥ 0`, `get_value_at(k, s)`, which
walks back from the key's `last_serial` through `back_serial` links until
it reaches a serial at or below `s`, returns exactly the value `k` held
immediately after serial `s` — the value of its most recent write at or
before `s` — and raises `KeyError` when `k` was never set at or before
`s` or that write was a deletion. -/
theorem c1_time_travel {α : Type} (h : List (Batch α)) (r : String) (s : Int)
    (hnd : ∀ b ∈ h, (b.map (fun kv => kv.1.relpath)).Nodup) (_hs : 0 ≤ s) :
    get_value_at (buildH h) r s = refGet h r s := by
  obtain ⟨hn, hl, hr⟩ := buildH_inv h hnd
  obtain ⟨hidx, hchain⟩ := hr r
  cases hc : histChain h r with
  | nil =>
    rw [hc] at hidx hchain
    rw [get_value_at_norow s (by simpa using hidx)]
    rw [refGet, hc]
    rfl
  | cons q rest =>
    rw [hc] at hidx hchain
    rw [get_value_at_eq s (by simpa using hidx)]
    have hq : (histChain h r).length ≤ h.length := by
      rw [histChain, List.length_reverse]
      exact histChainAux_length_le r h 0
    have hlen : (q :: rest).length < (buildH h).changelog.length + 1 := by
      rw [hl, ← hc]
      omega
    have hwalk := gvaLoop_chain (buildH h) r s (q :: rest) hchain
      ((buildH h).changelog.length + 1) hlen
    rw [refGet, hc]
    exact hwalk

/-- Witness for C1: the history of concrete scenario 2 of the spec — set
key `a` to 5 at serial 0, delete it at serial 1 — queried at serial 0. -/
theorem c1_time_travel_witness :
    get_value_at
        (buildH [[((⟨"K", "a"⟩ : TKey), some 5)], [((⟨"K", "a"⟩ : TKey), none)]])
        "a" 0
      = refGet [[((⟨"K", "a"⟩ : TKey), some 5)], [((⟨"K", "a"⟩ : TKey), none)]]
          "a" 0 :=
  c1_time_travel
    [[((⟨"K", "a"⟩ : TKey), some 5)], [((⟨"K", "a"⟩ : TKey), none)]]
    "a" 0 (by decide) (by decide)

/-- A `-tmp` path differs from its stripped form (it is four characters
longer). -/
theorem stripTmp_ne (r : Path) (h : isTmp r = true) : stripTmp r ≠ r := by
  have hsuf : tmpSuffix <:+ r := by
    simpa [isTmp] using h
  have hlen : 4 ≤ r.length := hsuf.length_le
  intro he
  have hl : (stripTmp r).length = r.length - 4 := by
    rw [stripTmp, List.length_take]
    exact Nat.min_eq_left (Nat.sub_le _ _)
  rw [he] at hl
  omega

/-- A recovery step leaves every path other than the entry and its
stripped form untouched. -/
theorem recoveryStep_untouched (fs fs1 : Fs) (r p : Path)
    (h : recoveryStep fs r = some fs1) (hp : p ≠ r) (hps : p ≠ stripTmp r) :
    fs1 p = fs p := by
  unfold recoveryStep at h
  by_cases ht : isTmp r
  · rw [if_pos ht] at h
    cases hr : fs r with
    | some c =>
      rw [hr] at h
      cases h
      simp [hps, hp]
    | none =>
      rw [hr] at h
      by_cases hg : (fs (stripTmp r)).isSome
      · rw [if_pos hg] at h
        cases h
        rfl
      · rw [if_neg hg] at h
        cases h
  · rw [if_neg ht] at h
    cases h
    simp [hp]

/-- A recovery step never deletes a path other than its own entry: a path
that exists and is not the processed entry still exists afterwards. -/
theorem recoveryStep_keeps_some (fs fs1 : Fs) (r p : Path)
    (h : recoveryStep fs r = some fs1) (hp : p ≠ r)
    (hs : (fs p).isSome = true) : (fs1 p).isSome = true := by
  unfold recoveryStep at h
  by_cases ht : isTmp r
  · rw [if_pos ht] at h
    cases hr : fs r with
    | some c =>
      rw [hr] at h
      cases h
      by_cases hps : p = stripTmp r
      · simp [hps]
      · simp [hps, hp, hs]
    | none =>
      rw [hr] at h
      by_cases hg : (fs (stripTmp r)).isSome
      · rw [if_pos hg] at h
        cases h
        exact hs
      · rw [if_neg hg] at h
        cases h
  · rw [if_neg ht] at h
    cases h
    simp [hp, hs]

/-- A recovery step only creates a file at the stripped form of a `-tmp`
entry: an absent path not of that form stays absent. -/
theorem recoveryStep_keeps_none (fs fs1 : Fs) (r p : Path)
    (h : recoveryStep fs r = some fs1) (hn : fs p = none)
    (hps : isTmp r = true → stripTmp r ≠ p) : fs1 p = none := by
  unfold recoveryStep at h
  by_cases ht : isTmp r
  · rw [if_pos ht] at h
    cases hr : fs r with
    | some c =>
      rw [hr] at h
      cases h
      have hps2 : p ≠ stripTmp r := fun hc => hps ht hc.symm
      by_cases hp : p = r
      · simp [hp, Ne.symm (stripTmp_ne r ht)]
      · simp [hps2, hp, hn]
    | none =>
      rw [hr] at h
      by_cases hg : (fs (stripTmp r)).isSome
      · rw [if_pos hg] at h
        cases h
        exact hn
      · rw [if_neg hg] at h
        cases h
  · rw [if_neg ht] at h
    cases h
    by_cases hp : p = r
    · simp [hp]
    · simp [hp, hn]

/-- After a successful recovery step on a `-tmp` entry, the temp file is
gone and the stripped form exists. -/
theorem recoveryStep_post_tmp (fs fs1 : Fs) (r : Path) (ht : isTmp r = true)
    (h : recoveryStep fs r = some fs1) :
    fs1 r = none ∧ (fs1 (stripTmp r)).isSome = true := by
  unfold recoveryStep at h
  rw [if_pos ht] at h
  cases hr : fs r with
  | some c =>
    rw [hr] at h
    cases h
    refine ⟨?_, by simp⟩
    simp [Ne.symm (stripTmp_ne r ht)]
  | none =>
    rw [hr] at h
    by_cases hg : (fs (stripTmp r)).isSome
    · rw [if_pos hg] at h
      cases h
      exact ⟨hr, hg⟩
    · rw [if_neg hg] at h
      cases h

/-- A recovery step on a plain (removal) entry always succeeds and just
removes the path. -/
theorem recoveryStep_removal (fs : Fs) (r : Path) (ht : isTmp r = false) :
    recoveryStep fs r = some (fun p => if p = r then none else fs p) := by
  unfold recoveryStep
  rw [ht]
  rfl

/-- Replay keeps a path that exists and is not among the entries. -/
theorem cpr_keeps_some (p : Path) :
    ∀ (l : List Path) (fs fs2 : Fs),
      check_pending_renames fs l = some fs2 → p ∉ l → (fs p).isSome = true →
      (fs2 p).isSome = true
  | [], _, _, h, _, hs => by
    cases h
    exact hs
  | r :: rest, fs, fs2, h, hmem, hs => by
    unfold check_pending_renames at h
    cases hstep : recoveryStep fs r with
    | none =>
      rw [hstep] at h
      cases h
    | some fs1 =>
      rw [hstep] at h
      exact cpr_keeps_some p rest fs1 fs2 h
        (fun hm => hmem (List.mem_cons_of_mem _ hm))
        (recoveryStep_keeps_some fs fs1 r p hstep
          (fun he => hmem (by rw [he]; exact List.mem_cons_self _ _)) hs)

/-- Replay keeps a path absent when no `-tmp` entry renames onto it. -/
theorem cpr_keeps_none (p : Path) :
    ∀ (l : List Path) (fs fs2 : Fs),
      check_pending_renames fs l = some fs2 → fs p = none →
      (∀ e ∈ l, isTmp e = true → stripTmp e ≠ p) → fs2 p = none
  | [], _, _, h, hn, _ => by
    cases h
    exact hn
  | r :: rest, fs, fs2, h, hn, hsep => by
    unfold check_pending_renames at h
    cases hstep : recoveryStep fs r with
    | none =>
      rw [hstep] at h
      cases h
    | some fs1 =>
      rw [hstep] at h
      exact cpr_keeps_none p rest fs1 fs2 h
        (recoveryStep_keeps_none fs fs1 r p hstep hn
          (hsep r (List.mem_cons_self _ _)))
        (fun e he => hsep e (List.mem_cons_of_mem _ he))

/-- After one successful replay of an interference-free entry list, every
`-tmp` entry is absent with its stripped form present, and every plain
entry is absent. -/
theorem cpr_post (l : List Path) :
    ∀ (fs fs2 : Fs),
      (∀ e ∈ l, isTmp e = true → stripTmp e ∉ l) →
      check_pending_renames fs l = some fs2 →
      ∀ e ∈ l,
        (isTmp e = true → fs2 e = none ∧ (fs2 (stripTmp e)).isSome = true) ∧
        (isTmp e = false → fs2 e = none) := by
  induction l with
  | nil =>
    intro fs fs2 _ _ e he
    cases he
  | cons r rest ih =>
    intro fs fs2 hsep h e he
    unfold check_pending_renames at h
    cases hstep : recoveryStep fs r with
    | none =>
      rw [hstep] at h
      cases h
    | some fs1 =>
      rw [hstep] at h
      have hsep_rest : ∀ e2 ∈ rest, isTmp e2 = true → stripTmp e2 ∉ rest :=
        fun e2 he2 ht2 hc =>
          hsep e2 (List.mem_cons_of_mem _ he2) ht2 (List.mem_cons_of_mem _ hc)
      have hne_head : ∀ e2 ∈ rest, isTmp e2 = true → stripTmp e2 ≠ r :=
        fun e2 he2 ht2 hc =>
          hsep e2 (List.mem_cons_of_mem _ he2) ht2
            (by rw [hc]; exact List.mem_cons_self _ _)
      rcases List.mem_cons.1 he with rfl | he1
      · constructor
        · intro ht
          have post := recoveryStep_post_tmp fs fs1 e ht hstep
          refine ⟨cpr_keeps_none e rest fs1 fs2 h post.1 hne_head, ?_⟩
          exact cpr_keeps_some (stripTmp e) rest fs1 fs2 h
            (fun hm =>
              hsep e (List.mem_cons_self _ _) ht (List.mem_cons_of_mem _ hm))
            post.2
        · intro ht
          have h1 : fs1 e = none := by
            rw [recoveryStep_removal fs e ht] at hstep
            cases hstep
            simp
          exact cpr_keeps_none e rest fs1 fs2 h h1 hne_head
      · exact ih fs1 fs2 hsep_rest h e he1

/-- Replaying an entry list on a state where every entry's work is
already done succeeds and changes nothing. -/
theorem cpr_noop (l : List Path) :
    ∀ fs : Fs,
      (∀ e ∈ l,
        (isTmp e = true → fs e = none ∧ (fs (stripTmp e)).isSome = true) ∧
        (isTmp e = false → fs e = none)) →
      check_pending_renames fs l = some fs := by
  induction l with
  | nil =>
    intro fs _
    rfl
  | cons r rest ih =>
    intro fs hS
    have hr := hS r (List.mem_cons_self _ _)
    by_cases ht : isTmp r
    · obtain ⟨h1, h2⟩ := hr.1 ht
      have hstep : recoveryStep fs r = some fs := by
        unfold recoveryStep
        rw [if_pos ht, h1, if_pos h2]
      unfold check_pending_renames
      rw [hstep]
      exact ih fs (fun e he => hS e (List.mem_cons_of_mem _ he))
    · have ht2 : isTmp r = false := by simpa using ht
      have h1 := hr.2 ht2
      have hfun : (fun p => if p = r then none else fs p) = fs := by
        funext p
        by_cases hp : p = r
        · rw [if_pos hp, hp, h1]
        · rw [if_neg hp]
      have hstep : recoveryStep fs r = some fs := by
        rw [recoveryStep_removal fs r ht2, hfun]
      unfold check_pending_renames
      rw [hstep]
      exact ih fs (fun e he => hS e (List.mem_cons_of_mem _ he))

/-- C9 (amended): for every rel_renames list in which no entry is the
stripped form of a `-tmp` entry of the list (so no later entry removes or
renames away what an earlier entry's replay established), and every
filesystem state on which `check_pending_renames` already succeeded once,
applying it again succeeds and leaves the state exactly as it was:
replaying the recovery plan any number of times equals applying it
once. -/
theorem c9_idempotent_recovery (l : List Path) (fs fs2 : Fs)
    (hsep : ∀ e ∈ l, isTmp e = true → stripTmp e ∉ l)
    (h1 : check_pending_renames fs l = some fs2) :
    check_pending_renames fs2 l = some fs2 :=
  cpr_noop l fs2 (cpr_post l fs fs2 hsep h1)

/-- C9 counterexample: on the changelog tail `["a-tmp", "a"]` (stage file
`a`, then delete `a`) applied to a filesystem holding only `a-tmp`, the
first replay succeeds (rename then remove), but the second replay hits
the `assert os.path.exists(path[:-4])` failure: the `-tmp` file is gone
and the stripped form was removed by the second entry.  Replay is
therefore not idempotent for arbitrary rel_renames lists. -/
theorem c9_idempotent_recovery_cex :
    ((check_pending_renames
          (fun p => if p = "a-tmp".toList then some "X" else none)
          ["a-tmp".toList, "a".toList]).isSome = true) ∧
      ((check_pending_renames
            (fun p => if p = "a-tmp".toList then some "X" else none)
            ["a-tmp".toList, "a".toList]).bind
          (fun fs1 => check_pending_renames fs1 ["a-tmp".toList, "a".toList]))
        = none := by
  exact ⟨rfl, rfl⟩

/-- Witness for C9 (amended): the tail `["a-tmp"]` on a filesystem
holding `a-tmp`; the second replay returns the state of the first
unchanged. -/
theorem c9_idempotent_recovery_witness :
    check_pending_renames
        ((check_pending_renames
            (fun p => if p = "a-tmp".toList then some "X" else none)
            ["a-tmp".toList]).getD (fun _ => none))
        ["a-tmp".toList]
      = some ((check_pending_renames
          (fun p => if p = "a-tmp".toList then some "X" else none)
          ["a-tmp".toList]).getD (fun _ => none)) :=
  c9_idempotent_recovery ["a-tmp".toList]
    (fun p => if p = "a-tmp".toList then some "X" else none) _
    (by decide) rfl

/-- Witness for C2 (amended) on the pattern `users/{u}/info` with
`u = "alice"`. -/
theorem c2_param_roundtrip_witness :
    applyParams [Seg.lit "users".toList, Seg.param "u", Seg.lit "info".toList]
        (fun _ => "alice".toList)
        = some (List.intercalate ['/']
            ([Seg.lit "users".toList, Seg.param "u",
              Seg.lit "info".toList].map (resolveSeg (fun _ => "alice".toList)))) ∧
      extract_params [Seg.lit "users".toList, Seg.param "u", Seg.lit "info".toList]
          (List.intercalate ['/']
            ([Seg.lit "users".toList, Seg.param "u",
              Seg.lit "info".toList].map (resolveSeg (fun _ => "alice".toList))))
        = (patternParams
              [Seg.lit "users".toList, Seg.param "u", Seg.lit "info".toList]).map
            (fun n => (n, (fun _ => "alice".toList) n)) :=
  c2_param_roundtrip _ _ (by decide) (by decide) (by decide)

end KeyfsModel
